import Mathlib

/-!
Verification of the trend-extraction core of the `reddit_analyzer` repository.

The Python sources `src/config.py`, `src/data_preprocessor.py` and
`src/web_search_analyzer.py` are shallowly embedded below.  Text is modelled
as `List Char`; Python's `in` substring test, `str.lower`, and the concrete
regular expressions of `FashionDataPreprocessor.clean_text` are translated
into executable Lean functions.  Python's regex classes `\w` and `\s` are
modelled at ASCII granularity (`[A-Za-z0-9_]` and the six ASCII whitespace
characters), matching the repository's all-ASCII taxonomy and test corpus.
The iteration order of Python `set` objects is modelled by an explicit
enumeration parameter where the order is observable.
-/

/-- Text is a list of characters. -/
abbrev Str := List Char

/-- Python `str.lower()` (ASCII granularity). -/
def lowerStr (s : Str) : Str := s.map Char.toLower

/-- Prefix test on character lists. -/
def isPrefixB : Str → Str → Bool
  | [], _ => true
  | _ :: _, [] => false
  | a :: as, b :: bs => a == b && isPrefixB as bs

/-- Python's substring operator `pat in s`. -/
def pyIn (pat : Str) : Str → Bool
  | [] => pat.isEmpty
  | c :: t => isPrefixB pat (c :: t) || pyIn pat t

/-- Python regex `\s` (ASCII granularity): the six ASCII whitespace characters. -/
def pyIsSpace (c : Char) : Bool :=
  c == ' ' || c == '\t' || c == '\n' || c == '\r' || c == '\x0b' || c == '\x0c'

/-- Python regex `\w` (ASCII granularity): alphanumeric or underscore. -/
def isWordChar (c : Char) : Bool := c.isAlphanum || c == '_'

/-- One character of the body of the URL regex in `clean_text`:
`(?:[a-zA-Z]|[0-9]|[$-_@.&+]|[!*\\(\\),]|(?:%[0-9a-fA-F][0-9a-fA-F]))`.
The class `[$-_@.&+]` is the byte range 0x24..0x5F (which subsumes `@.&+`
and `%`, so the `%hh` alternative adds no extra first characters). -/
def urlChar (c : Char) : Bool :=
  c.isAlpha || c.isDigit || (if 0x24 ≤ c.toNat ∧ c.toNat ≤ 0x5f then true else false)
    || c == '!' || c == '*' || c == '\\' || c == '(' || c == ')' || c == ','

/-- After a URL scheme, the regex body `(...)+` must consume at least one
character; the match is greedy and consumes the maximal run. -/
def urlBody (s : Str) : Option Str :=
  if (s.takeWhile urlChar).isEmpty then none else some (s.dropWhile urlChar)

/-- Attempt to match the URL regex of `clean_text` at the head of `s`,
returning the remainder after the match. -/
def matchUrl (s : Str) : Option Str :=
  if isPrefixB "https://".toList s then urlBody (s.drop 8)
  else if isPrefixB "http://".toList s then urlBody (s.drop 7)
  else none

/-- `re.sub(URL_PATTERN, '', text)`, with an explicit fuel argument so the
recursion is structural (each step consumes at least one character, so fuel
`s.length` is always sufficient; see `removeUrlsF_fuel`). -/
def removeUrlsF : Nat → Str → Str
  | _, [] => []
  | 0, s => s
  | fuel + 1, c :: t =>
    match matchUrl (c :: t) with
    | some rest => removeUrlsF fuel rest
    | none => c :: removeUrlsF fuel t

/-- `re.sub(URL_PATTERN, '', text)`: remove every URL-shaped substring,
scanning left to right and continuing after each match. -/
def removeUrls (s : Str) : Str := removeUrlsF s.length s

/-- Attempt to match the markdown-link regex `\[([^\]]+)\]\([^)]+\)` at the
head of `s`, returning the link text (capture group 1) and the remainder. -/
def matchMd : Str → Option (Str × Str)
  | '[' :: t =>
    if (t.takeWhile (fun c => c != ']')).isEmpty then none
    else
      match t.dropWhile (fun c => c != ']') with
      | ']' :: '(' :: r2 =>
        if (r2.takeWhile (fun c => c != ')')).isEmpty then none
        else
          match r2.dropWhile (fun c => c != ')') with
          | ')' :: r4 => some (t.takeWhile (fun c => c != ']'), r4)
          | _ => none
      | _ => none
  | _ => none

/-- `re.sub(r'\[([^\]]+)\]\([^)]+\)', r'\1', text)` with explicit fuel
(structural recursion; fuel `s.length` is sufficient, see
`removeMdLinksF_fuel`): replace each markdown link by its link text; the
replacement is emitted, not rescanned. -/
def removeMdLinksF : Nat → Str → Str
  | _, [] => []
  | 0, s => s
  | fuel + 1, c :: t =>
    match matchMd (c :: t) with
    | some (inner, rest) => inner ++ removeMdLinksF fuel rest
    | none => c :: removeMdLinksF fuel t

def removeMdLinks (s : Str) : Str := removeMdLinksF s.length s

/-- Attempt to match the bold regex `\*\*([^*]+)\*\*` at the head of `s`. -/
def matchBold : Str → Option (Str × Str)
  | '*' :: '*' :: t =>
    if (t.takeWhile (fun c => c != '*')).isEmpty then none
    else
      match t.dropWhile (fun c => c != '*') with
      | '*' :: '*' :: r2 => some (t.takeWhile (fun c => c != '*'), r2)
      | _ => none
  | _ => none

/-- `re.sub(r'\*\*([^*]+)\*\*', r'\1', text)` with explicit fuel
(structural recursion; fuel `s.length` is sufficient): strip bold markers. -/
def removeBoldF : Nat → Str → Str
  | _, [] => []
  | 0, s => s
  | fuel + 1, c :: t =>
    match matchBold (c :: t) with
    | some (inner, rest) => inner ++ removeBoldF fuel rest
    | none => c :: removeBoldF fuel t

def removeBold (s : Str) : Str := removeBoldF s.length s

/-- Attempt to match the italic regex `\*([^*]+)\*` at the head of `s`. -/
def matchItalic : Str → Option (Str × Str)
  | '*' :: t =>
    if (t.takeWhile (fun c => c != '*')).isEmpty then none
    else
      match t.dropWhile (fun c => c != '*') with
      | '*' :: r2 => some (t.takeWhile (fun c => c != '*'), r2)
      | _ => none
  | _ => none

/-- `re.sub(r'\*([^*]+)\*', r'\1', text)` with explicit fuel (structural
recursion; fuel `s.length` is sufficient): strip italic markers. -/
def removeItalicF : Nat → Str → Str
  | _, [] => []
  | 0, s => s
  | fuel + 1, c :: t =>
    match matchItalic (c :: t) with
    | some (inner, rest) => inner ++ removeItalicF fuel rest
    | none => c :: removeItalicF fuel t

def removeItalic (s : Str) : Str := removeItalicF s.length s

/-- `re.sub(r'[^\w\s]', ' ', text)`: replace every character that is neither
a word character nor whitespace by a space. -/
def stripSpecial (s : Str) : Str :=
  s.map (fun c => if isWordChar c || pyIsSpace c then c else ' ')

/-- `re.sub(r'\s+', ' ', text)`: collapse each maximal whitespace run to a
single space. -/
def collapseWs : Str → Str
  | [] => []
  | [c] => if pyIsSpace c then [' '] else [c]
  | c1 :: c2 :: t =>
    if pyIsSpace c1 && pyIsSpace c2 then collapseWs (c2 :: t)
    else (if pyIsSpace c1 then ' ' else c1) :: collapseWs (c2 :: t)

/-- Python `str.strip()`: drop whitespace from both ends. -/
def stripWs (s : Str) : Str :=
  ((s.dropWhile pyIsSpace).reverse.dropWhile pyIsSpace).reverse

/-- `FashionDataPreprocessor.clean_text` (src/data_preprocessor.py, lines 41-60):
empty input short-circuits to `""`; otherwise URLs, markdown links, bold and
italic markers are removed, special characters become spaces, whitespace runs
collapse, and the ends are trimmed. -/
def cleanText (text : Str) : Str :=
  if text.isEmpty then []
  else stripWs (collapseWs (stripSpecial (removeItalic (removeBold (removeMdLinks (removeUrls text))))))

/-- `clean_text` on a possibly-null argument: Python `if not text` treats
`None` and `""` alike. -/
def cleanTextOpt : Option Str → Str
  | none => []
  | some t => cleanText t

/-- `Config.INDIAN_FASHION_KEYWORDS` (src/config.py, lines 29-61). -/
def INDIAN_FASHION_KEYWORDS : List (String × List String) := [
  ("traditional", ["saree", "salwar", "kameez", "lehenga", "anarkali", "kurta", "dhoti", "mundu",
    "ghagra", "choli", "dupatta", "pallu", "pallav", "zari", "zardosi", "embroidery",
    "bandhani", "ikat", "block_print", "ajrakh", "kalamkari", "phulkari", "chikankari"]),
  ("modern_indian", ["indian_western", "fusion_wear", "contemporary_indian", "modern_saree",
    "indian_casual", "ethnic_casual", "indian_formal", "indian_party_wear"]),
  ("indian_brands", ["fabindia", "anita_dongre", "sabyasachi", "manish_malhotra", "tarun_tahiliani",
    "rohit_bal", "satya_paul", "w_for_woman", "biba", "global_desai",
    "masaba", "payal_khandwala", "ridhi_mehra", "suket_dhir", "abraham_thakore"]),
  ("indian_styles", ["indian_streetwear", "desi_aesthetic", "indian_minimalist", "indian_bohemian",
    "indian_preppy", "indian_gothic", "indian_vintage", "indian_retro"]),
  ("indian_accessories", ["jhumka", "kundan", "polki", "meenakari", "thewa", "lac_bangles",
    "indian_jewelry", "traditional_jewelry", "indian_bags", "indian_footwear",
    "kolhapuri", "mojari", "jutti", "indian_scarves", "indian_belts"]),
  ("indian_colors", ["indian_red", "saffron", "turmeric_yellow", "mehendi_green", "indigo",
    "rose_pink", "marigold", "lotus_pink", "peacock_blue", "mango_yellow"]),
  ("indian_fabrics", ["silk", "cotton", "khadi", "linen", "wool", "jute", "bamboo_fabric",
    "banana_fiber", "lotus_fiber", "organic_cotton", "handloom", "powerloom"])]

/-- `Config.INDIAN_REGIONS` (src/config.py, lines 64-71), in declared order. -/
def INDIAN_REGIONS : List (String × List String) := [
  ("North_India", ["delhi", "punjab", "haryana", "rajasthan", "uttar_pradesh", "himachal"]),
  ("South_India", ["karnataka", "tamil_nadu", "kerala", "andhra_pradesh", "telangana"]),
  ("East_India", ["west_bengal", "bihar", "odisha", "jharkhand", "assam"]),
  ("West_India", ["maharashtra", "gujarat", "goa", "madhya_pradesh"]),
  ("Central_India", ["chhattisgarh", "madhya_pradesh"]),
  ("Northeast_India", ["assam", "manipur", "meghalaya", "nagaland", "tripura"])]

/-- `FashionDataPreprocessor._get_fashion_keywords`: the category lists are
concatenated in declared order and fed into a Python `set`.  The set's
contents are this list's elements; `dedup` models the deduplication and the
declared order serves as the canonical enumeration used when a fixed
iteration order is needed. -/
def fashionKeywords : List Str :=
  (((INDIAN_FASHION_KEYWORDS.map Prod.snd).flatten).dedup).map String.toList

/-- The generic fashion terms hard-coded in `is_fashion_relevant`. -/
def fashionTerms : List Str :=
  ["fashion", "style", "outfit", "clothing", "dress", "wear", "look"].map String.toList

/-- `FashionDataPreprocessor.is_fashion_relevant` (src/data_preprocessor.py,
lines 62-77): lowercase `title + ' ' + content` and test every taxonomy
keyword, then every generic fashion term, for substring occurrence. -/
def is_fashion_relevant (title content : Str) : Bool :=
  let text := lowerStr (title ++ ' ' :: content)
  fashionKeywords.any (fun keyword => pyIn keyword text)
    || fashionTerms.any (fun term => pyIn term text)

/-- `FashionDataPreprocessor.extract_fashion_keywords` with the Python set's
iteration order made explicit as the `order` parameter: the keywords are
appended in iteration order when they occur in the lowercased text. -/
def extractWithOrder (order : List Str) (text : Str) : List Str :=
  if text.isEmpty then []
  else
    let textLower := lowerStr text
    order.filter (fun keyword => pyIn keyword textLower)

/-- `FashionDataPreprocessor.extract_fashion_keywords` (src/data_preprocessor.py,
lines 79-91) under the canonical enumeration of the keyword set. -/
def extract_fashion_keywords (text : Str) : List Str :=
  extractWithOrder fashionKeywords text

/-- `FashionDataPreprocessor.detect_region` (src/data_preprocessor.py, lines
93-105): iterate the regions in declared order, inside each the states in
declared order, and return the first region one of whose states occurs in
the lowercased text; `Unknown` if none (or if the text is empty). -/
def detect_region (text : Str) : String :=
  if text.isEmpty then "Unknown"
  else
    let textLower := lowerStr text
    match INDIAN_REGIONS.find? (fun r => r.2.any (fun st => pyIn st.toList textLower)) with
    | some r => r.1
    | none => "Unknown"

/-- The per-document keyword tagging performed by `preprocess_data`
(src/data_preprocessor.py, line 133): keywords are extracted from
`clean_title + ' ' + clean_content`. -/
def tagKeywords (title body : Str) : List Str :=
  extract_fashion_keywords (cleanText title ++ ' ' :: cleanText body)

/-- Keyword frequency aggregation over one source's documents, as performed
by `_get_top_keywords` (src/data_preprocessor.py, lines 215-222): all
per-document keyword lists are concatenated and occurrences counted. -/
def sourceKeywordCount (docs : List (Str × Str)) (k : Str) : Nat :=
  ((docs.map (fun d => tagKeywords d.1 d.2)).flatten).count k

/-- The comparison record built by `compare_reddit_web_trends`
(src/web_search_analyzer.py, lines 252-277).  The Python sets are modelled
as `Finset`, the comparison being purely set-level. -/
structure TrendComparison where
  common_keywords : Finset Str
  reddit_only : Finset Str
  web_only : Finset Str
  reddit_count : Nat
  web_count : Nat
  common_count : Nat

/-- `WebSearchAnalyzer.compare_reddit_web_trends` (src/web_search_analyzer.py,
lines 252-277): the web side is the deduplicated concatenation of the
per-query keyword lists held in `search_results`; `reddit_count` is the raw
length of the caller's list, `web_count` the length of the deduplicated web
list. -/
def compare_reddit_web_trends (redditKeywords : List Str)
    (searchResults : List (List Str)) : TrendComparison :=
  let webKeywords := (searchResults.flatten).dedup
  let common := redditKeywords.toFinset ∩ webKeywords.toFinset
  let redditOnly := redditKeywords.toFinset \ webKeywords.toFinset
  let webOnly := webKeywords.toFinset \ redditKeywords.toFinset
  { common_keywords := common
    reddit_only := redditOnly
    web_only := webOnly
    reddit_count := redditKeywords.length
    web_count := webKeywords.length
    common_count := common.card }

/-! ### Whitespace collapsing and trimming -/

/-- Two adjacent characters are acceptable when they are not both whitespace. -/
def spacedOk (a b : Char) : Prop := ¬(pyIsSpace a = true ∧ pyIsSpace b = true)

/-! ## Lemmas and claim theorems -/

theorem isPrefixB_length : ∀ p s : Str, isPrefixB p s = true → p.length ≤ s.length := by
  intro p
  induction p with
  | nil => intro s _; exact Nat.zero_le _
  | cons a as ih =>
    intro s h
    cases s with
    | nil => simp [isPrefixB] at h
    | cons b bs =>
      simp only [isPrefixB, Bool.and_eq_true] at h
      simpa [List.length_cons] using Nat.succ_le_succ (ih bs h.2)

theorem length_dropWhile_le (p : Char → Bool) (s : Str) :
    (s.dropWhile p).length ≤ s.length := by
  induction s with
  | nil => simp
  | cons c t ih =>
    by_cases h : p c = true
    · simp only [List.dropWhile_cons, h, if_true]
      exact Nat.le_trans ih (Nat.le_succ _)
    · simp [List.dropWhile_cons, h]

theorem matchUrl_some_length {s rest : Str} (h : matchUrl s = some rest) :
    rest.length < s.length := by
  unfold matchUrl urlBody at h
  split at h
  next h8 =>
    split at h
    · exact absurd h (by simp)
    · simp only [Option.some.injEq] at h
      subst h
      have h2 := isPrefixB_length _ _ h8
      have hl : ("https://".toList : Str).length = 8 := rfl
      rw [hl] at h2
      have h1 := length_dropWhile_le urlChar (s.drop 8)
      rw [List.length_drop] at h1
      omega
  next =>
    split at h
    next h7 =>
      split at h
      · exact absurd h (by simp)
      · simp only [Option.some.injEq] at h
        subst h
        have h2 := isPrefixB_length _ _ h7
        have hl : ("http://".toList : Str).length = 7 := rfl
        rw [hl] at h2
        have h1 := length_dropWhile_le urlChar (s.drop 7)
        rw [List.length_drop] at h1
        omega
    next => exact absurd h (by simp)

theorem removeUrlsF_fuel : ∀ (f1 f2 : Nat) (s : Str), s.length ≤ f1 → s.length ≤ f2 →
    removeUrlsF f1 s = removeUrlsF f2 s := by
  intro f1
  induction f1 with
  | zero =>
    intro f2 s h1 _
    have : s = [] := List.eq_nil_of_length_eq_zero (Nat.le_zero.mp h1)
    subst this
    cases f2 <;> rfl
  | succ f ih =>
    intro f2 s h1 h2
    cases s with
    | nil => cases f2 <;> rfl
    | cons c t =>
      cases f2 with
      | zero => exact absurd h2 (by simp)
      | succ g =>
        simp only [removeUrlsF]
        cases hm : matchUrl (c :: t) with
        | some rest =>
          have hr := matchUrl_some_length hm
          simp only [List.length_cons] at h1 h2 hr
          exact ih g rest (by omega) (by omega)
        | none =>
          simp only [List.length_cons] at h1 h2
          rw [ih g t (by omega) (by omega)]

theorem takeWhile_dropWhile_length (p : Char → Bool) (s : Str) :
    (s.takeWhile p).length + (s.dropWhile p).length = s.length := by
  rw [← List.length_append, List.takeWhile_append_dropWhile]

theorem matchMd_some_length {s inner rest : Str} (h : matchMd s = some (inner, rest)) :
    rest.length < s.length := by
  unfold matchMd at h
  split at h
  next t =>
    split at h
    · exact absurd h (by simp)
    · split at h
      next r2 hdw =>
        split at h
        · exact absurd h (by simp)
        · split at h
          next r4 hdw2 =>
            have hsplit := takeWhile_dropWhile_length (fun c => c != ']') t
            have hsplit2 := takeWhile_dropWhile_length (fun c => c != ')') r2
            rw [hdw] at hsplit
            rw [hdw2] at hsplit2
            simp only [Option.some.injEq, Prod.mk.injEq] at h
            obtain ⟨-, h2⟩ := h
            subst h2
            simp only [List.length_cons] at hsplit hsplit2 ⊢
            omega
          next => exact absurd h (by simp)
      next => exact absurd h (by simp)
  next => exact absurd h (by simp)

theorem removeMdLinksF_fuel : ∀ (f1 f2 : Nat) (s : Str), s.length ≤ f1 → s.length ≤ f2 →
    removeMdLinksF f1 s = removeMdLinksF f2 s := by
  intro f1
  induction f1 with
  | zero =>
    intro f2 s h1 _
    have : s = [] := List.eq_nil_of_length_eq_zero (Nat.le_zero.mp h1)
    subst this
    cases f2 <;> rfl
  | succ f ih =>
    intro f2 s h1 h2
    cases s with
    | nil => cases f2 <;> rfl
    | cons c t =>
      cases f2 with
      | zero => exact absurd h2 (by simp)
      | succ g =>
        simp only [removeMdLinksF]
        cases hm : matchMd (c :: t) with
        | some p =>
          obtain ⟨inner, rest⟩ := p
          have hr := matchMd_some_length hm
          simp only [List.length_cons] at h1 h2 hr
          exact congrArg (fun x => inner ++ x) (ih g rest (by omega) (by omega))
        | none =>
          simp only [List.length_cons] at h1 h2
          exact congrArg (fun x => c :: x) (ih g t (by omega) (by omega))

theorem matchBold_some_length {s inner rest : Str} (h : matchBold s = some (inner, rest)) :
    rest.length < s.length := by
  unfold matchBold at h
  split at h
  next t =>
    split at h
    · exact absurd h (by simp)
    · split at h
      next r2 hdw =>
        have hsplit := takeWhile_dropWhile_length (fun c => c != '*') t
        rw [hdw] at hsplit
        simp only [Option.some.injEq, Prod.mk.injEq] at h
        obtain ⟨-, h2⟩ := h
        subst h2
        simp only [List.length_cons] at hsplit ⊢
        omega
      next => exact absurd h (by simp)
  next => exact absurd h (by simp)

theorem removeBoldF_fuel : ∀ (f1 f2 : Nat) (s : Str), s.length ≤ f1 → s.length ≤ f2 →
    removeBoldF f1 s = removeBoldF f2 s := by
  intro f1
  induction f1 with
  | zero =>
    intro f2 s h1 _
    have : s = [] := List.eq_nil_of_length_eq_zero (Nat.le_zero.mp h1)
    subst this
    cases f2 <;> rfl
  | succ f ih =>
    intro f2 s h1 h2
    cases s with
    | nil => cases f2 <;> rfl
    | cons c t =>
      cases f2 with
      | zero => exact absurd h2 (by simp)
      | succ g =>
        simp only [removeBoldF]
        cases hm : matchBold (c :: t) with
        | some p =>
          obtain ⟨inner, rest⟩ := p
          have hr := matchBold_some_length hm
          simp only [List.length_cons] at h1 h2 hr
          exact congrArg (fun x => inner ++ x) (ih g rest (by omega) (by omega))
        | none =>
          simp only [List.length_cons] at h1 h2
          exact congrArg (fun x => c :: x) (ih g t (by omega) (by omega))

theorem matchItalic_some_length {s inner rest : Str} (h : matchItalic s = some (inner, rest)) :
    rest.length < s.length := by
  unfold matchItalic at h
  split at h
  next t =>
    split at h
    · exact absurd h (by simp)
    · split at h
      next r2 hdw =>
        have hsplit := takeWhile_dropWhile_length (fun c => c != '*') t
        rw [hdw] at hsplit
        simp only [Option.some.injEq, Prod.mk.injEq] at h
        obtain ⟨-, h2⟩ := h
        subst h2
        simp only [List.length_cons] at hsplit ⊢
        omega
      next => exact absurd h (by simp)
  next => exact absurd h (by simp)

theorem removeItalicF_fuel : ∀ (f1 f2 : Nat) (s : Str), s.length ≤ f1 → s.length ≤ f2 →
    removeItalicF f1 s = removeItalicF f2 s := by
  intro f1
  induction f1 with
  | zero =>
    intro f2 s h1 _
    have : s = [] := List.eq_nil_of_length_eq_zero (Nat.le_zero.mp h1)
    subst this
    cases f2 <;> rfl
  | succ f ih =>
    intro f2 s h1 h2
    cases s with
    | nil => cases f2 <;> rfl
    | cons c t =>
      cases f2 with
      | zero => exact absurd h2 (by simp)
      | succ g =>
        simp only [removeItalicF]
        cases hm : matchItalic (c :: t) with
        | some p =>
          obtain ⟨inner, rest⟩ := p
          have hr := matchItalic_some_length hm
          simp only [List.length_cons] at h1 h2 hr
          exact congrArg (fun x => inner ++ x) (ih g rest (by omega) (by omega))
        | none =>
          simp only [List.length_cons] at h1 h2
          exact congrArg (fun x => c :: x) (ih g t (by omega) (by omega))

/-! ### Basic lemmas about the string primitives -/

theorem mem_of_isPrefixB {p s : Str} {c : Char} (h : isPrefixB p s = true) (hc : c ∈ p) :
    c ∈ s := by
  induction p generalizing s with
  | nil => cases hc
  | cons a as ih =>
    cases s with
    | nil => simp [isPrefixB] at h
    | cons b bs =>
      simp only [isPrefixB, Bool.and_eq_true, beq_iff_eq] at h
      rcases List.mem_cons.mp hc with hca | hca
      · exact List.mem_cons.mpr (Or.inl (hca.trans h.1))
      · exact List.mem_cons.mpr (Or.inr (ih h.2 hca))

theorem isPrefixB_iff {p s : Str} : isPrefixB p s = true ↔ p <+: s := by
  induction p generalizing s with
  | nil => simp [isPrefixB, List.nil_prefix]
  | cons a as ih =>
    cases s with
    | nil =>
      simp only [isPrefixB, Bool.false_eq_true, false_iff]
      intro hp
      exact absurd (hp.length_le) (by simp)
    | cons b bs =>
      simp only [isPrefixB, Bool.and_eq_true, beq_iff_eq, ih, List.cons_prefix_cons]

theorem pyIn_iff {p s : Str} : pyIn p s = true ↔ p <:+: s := by
  induction s with
  | nil =>
    simp only [pyIn, List.isEmpty_iff]
    constructor
    · intro h; simp [h]
    · intro h; simpa using h.length_le
  | cons c t ih =>
    simp only [pyIn, Bool.or_eq_true, isPrefixB_iff, ih]
    exact (List.infix_cons_iff).symm

theorem mem_of_pyIn {p s : Str} {c : Char} (h : pyIn p s = true) (hc : c ∈ p) : c ∈ s := by
  induction s with
  | nil =>
    simp only [pyIn, List.isEmpty_iff] at h
    subst h; cases hc
  | cons b bs ih =>
    simp only [pyIn, Bool.or_eq_true] at h
    rcases h with h | h
    · exact mem_of_isPrefixB h hc
    · exact List.mem_cons.mpr (Or.inr (ih h))

/-! ### Unfolding and identity lemmas for the `clean_text` stages -/

theorem matchUrl_eq_none {s : Str} (h : (':' : Char) ∉ s) : matchUrl s = none := by
  unfold matchUrl
  rw [if_neg, if_neg]
  · intro hp
    exact h (mem_of_isPrefixB hp (by decide))
  · intro hp
    exact h (mem_of_isPrefixB hp (by decide))

theorem removeUrls_nil : removeUrls [] = [] := rfl

theorem removeUrls_cons_none {c : Char} {t : Str} (h : matchUrl (c :: t) = none) :
    removeUrls (c :: t) = c :: removeUrls t := by
  unfold removeUrls
  simp only [List.length_cons, removeUrlsF, h]

theorem removeUrls_id {s : Str} (h : (':' : Char) ∉ s) : removeUrls s = s := by
  induction s with
  | nil => exact removeUrls_nil
  | cons c t ih =>
    rw [removeUrls_cons_none (matchUrl_eq_none h),
      ih (fun hc => h (List.mem_cons_of_mem _ hc))]

theorem matchMd_eq_none {s : Str} (h : ('[' : Char) ∉ s) : matchMd s = none := by
  unfold matchMd
  split
  next t => exact absurd (List.mem_cons_self _ _) h
  next => rfl

theorem removeMdLinks_nil : removeMdLinks [] = [] := rfl

theorem removeMdLinks_cons_none {c : Char} {t : Str} (h : matchMd (c :: t) = none) :
    removeMdLinks (c :: t) = c :: removeMdLinks t := by
  unfold removeMdLinks
  simp only [List.length_cons, removeMdLinksF, h]

theorem removeMdLinks_id {s : Str} (h : ('[' : Char) ∉ s) : removeMdLinks s = s := by
  induction s with
  | nil => exact removeMdLinks_nil
  | cons c t ih =>
    rw [removeMdLinks_cons_none (matchMd_eq_none h),
      ih (fun hc => h (List.mem_cons_of_mem _ hc))]

theorem matchBold_eq_none {s : Str} (h : ('*' : Char) ∉ s) : matchBold s = none := by
  unfold matchBold
  split
  next t => exact absurd (List.mem_cons_self _ _) h
  next => rfl

theorem removeBold_nil : removeBold [] = [] := rfl

theorem removeBold_cons_none {c : Char} {t : Str} (h : matchBold (c :: t) = none) :
    removeBold (c :: t) = c :: removeBold t := by
  unfold removeBold
  simp only [List.length_cons, removeBoldF, h]

theorem removeBold_id {s : Str} (h : ('*' : Char) ∉ s) : removeBold s = s := by
  induction s with
  | nil => exact removeBold_nil
  | cons c t ih =>
    rw [removeBold_cons_none (matchBold_eq_none h),
      ih (fun hc => h (List.mem_cons_of_mem _ hc))]

theorem matchItalic_eq_none {s : Str} (h : ('*' : Char) ∉ s) : matchItalic s = none := by
  unfold matchItalic
  split
  next t => exact absurd (List.mem_cons_self _ _) h
  next => rfl

theorem removeItalic_nil : removeItalic [] = [] := rfl

theorem removeItalic_cons_none {c : Char} {t : Str} (h : matchItalic (c :: t) = none) :
    removeItalic (c :: t) = c :: removeItalic t := by
  unfold removeItalic
  simp only [List.length_cons, removeItalicF, h]

theorem removeItalic_id {s : Str} (h : ('*' : Char) ∉ s) : removeItalic s = s := by
  induction s with
  | nil => exact removeItalic_nil
  | cons c t ih =>
    rw [removeItalic_cons_none (matchItalic_eq_none h),
      ih (fun hc => h (List.mem_cons_of_mem _ hc))]

theorem stripSpecial_mem {s : Str} {c : Char} (h : c ∈ stripSpecial s) :
    isWordChar c = true ∨ pyIsSpace c = true := by
  rcases List.mem_map.mp h with ⟨a, -, ha⟩
  by_cases hcond : (isWordChar a || pyIsSpace a) = true
  · rw [if_pos hcond] at ha
    subst ha
    exact Bool.or_eq_true _ _ |>.mp hcond
  · rw [if_neg hcond] at ha
    subst ha
    right; decide

theorem stripSpecial_id {s : Str} (h : ∀ c ∈ s, isWordChar c = true ∨ c = ' ') :
    stripSpecial s = s := by
  unfold stripSpecial
  conv_rhs => rw [← List.map_id s]
  apply List.map_congr_left
  intro a ha
  rcases h a ha with hw | hsp
  · rw [if_pos (by simp [hw])]; rfl
  · subst hsp
    rw [if_pos (by decide)]; rfl

theorem collapseWs_nil : collapseWs [] = [] := rfl

theorem collapseWs_singleton (c : Char) :
    collapseWs [c] = if pyIsSpace c then [' '] else [c] := rfl

theorem collapseWs_cons2 (c1 c2 : Char) (t : Str) :
    collapseWs (c1 :: c2 :: t) =
      if pyIsSpace c1 && pyIsSpace c2 then collapseWs (c2 :: t)
      else (if pyIsSpace c1 then ' ' else c1) :: collapseWs (c2 :: t) := rfl

theorem pyIsSpace_normChar (c : Char) :
    pyIsSpace (if pyIsSpace c then ' ' else c) = pyIsSpace c := by
  by_cases h : pyIsSpace c = true
  · rw [if_pos h, h]; decide
  · rw [if_neg h]

theorem collapseWs_cons_head : ∀ (t : Str) (c : Char),
    ∃ r, collapseWs (c :: t) = (if pyIsSpace c then ' ' else c) :: r := by
  intro t
  induction t with
  | nil =>
    intro c
    exact ⟨[], collapseWs_singleton c |>.trans (by by_cases h : pyIsSpace c = true <;> simp [h])⟩
  | cons c2 t2 ih =>
    intro c
    rw [collapseWs_cons2]
    by_cases h12 : (pyIsSpace c && pyIsSpace c2) = true
    · obtain ⟨r, hr⟩ := ih c2
      rw [if_pos h12, hr]
      simp only [Bool.and_eq_true] at h12
      rw [if_pos h12.2, if_pos h12.1]
      exact ⟨r, rfl⟩
    · rw [if_neg h12]
      exact ⟨collapseWs (c2 :: t2), rfl⟩

theorem collapseWs_cons_mem : ∀ (t : Str) (c x : Char), x ∈ collapseWs (c :: t) →
    x = ' ' ∨ (x ∈ c :: t ∧ pyIsSpace x = false) := by
  intro t
  induction t with
  | nil =>
    intro c x hx
    rw [collapseWs_singleton] at hx
    by_cases h : pyIsSpace c = true
    · rw [if_pos h] at hx
      left; simpa using hx
    · rw [if_neg h] at hx
      right
      have hxc : x = c := by simpa using hx
      subst hxc
      exact ⟨List.mem_cons_self _ _, Bool.eq_false_iff.mpr h⟩
  | cons c2 t2 ih =>
    intro c x hx
    rw [collapseWs_cons2] at hx
    by_cases h12 : (pyIsSpace c && pyIsSpace c2) = true
    · rw [if_pos h12] at hx
      rcases ih c2 x hx with h | ⟨hm, hs⟩
      · exact Or.inl h
      · exact Or.inr ⟨List.mem_cons_of_mem _ hm, hs⟩
    · rw [if_neg h12] at hx
      rcases List.mem_cons.mp hx with rfl | hx'
      · by_cases hc : pyIsSpace c = true
        · left; rw [if_pos hc]
        · right
          rw [if_neg hc]
          exact ⟨List.mem_cons_self _ _, Bool.eq_false_iff.mpr hc⟩
      · rcases ih c2 x hx' with h | ⟨hm, hs⟩
        · exact Or.inl h
        · exact Or.inr ⟨List.mem_cons_of_mem _ hm, hs⟩

theorem collapseWs_cons_chain : ∀ (t : Str) (c : Char),
    List.Chain' spacedOk (collapseWs (c :: t)) := by
  intro t
  induction t with
  | nil =>
    intro c
    rw [collapseWs_singleton]
    by_cases h : pyIsSpace c = true <;> simp [h]
  | cons c2 t2 ih =>
    intro c
    rw [collapseWs_cons2]
    by_cases h12 : (pyIsSpace c && pyIsSpace c2) = true
    · rw [if_pos h12]; exact ih c2
    · rw [if_neg h12]
      obtain ⟨r, hr⟩ := collapseWs_cons_head t2 c2
      rw [hr]
      apply List.chain'_cons.mpr
      refine ⟨?_, by rw [← hr]; exact ih c2⟩
      intro ⟨ha, hb⟩
      rw [pyIsSpace_normChar] at ha hb
      simp [ha, hb] at h12

theorem collapseWs_chain (s : Str) : List.Chain' spacedOk (collapseWs s) := by
  cases s with
  | nil => exact List.chain'_nil
  | cons c t => exact collapseWs_cons_chain t c

theorem collapseWs_cons_id : ∀ (t : Str) (c : Char),
    (∀ x ∈ c :: t, pyIsSpace x = true → x = ' ') → List.Chain' spacedOk (c :: t) →
    collapseWs (c :: t) = c :: t := by
  intro t
  induction t with
  | nil =>
    intro c hsp _
    rw [collapseWs_singleton]
    by_cases h : pyIsSpace c = true
    · rw [if_pos h, hsp c (List.mem_cons_self _ _) h]
    · rw [if_neg h]
  | cons c2 t2 ih =>
    intro c hsp hch
    rw [collapseWs_cons2]
    have hno : ¬(pyIsSpace c && pyIsSpace c2) = true := by
      intro hb
      simp only [Bool.and_eq_true] at hb
      exact (List.chain'_cons.mp hch).1 ⟨hb.1, hb.2⟩
    rw [if_neg hno]
    have hhead : (if pyIsSpace c then ' ' else c) = c := by
      by_cases h : pyIsSpace c = true
      · rw [if_pos h, hsp c (List.mem_cons_self _ _) h]
      · rw [if_neg h]
    rw [hhead,
      ih c2 (fun x hx => hsp x (List.mem_cons_of_mem _ hx)) (List.chain'_cons.mp hch).2]

theorem collapseWs_id {s : Str} (hsp : ∀ x ∈ s, pyIsSpace x = true → x = ' ')
    (hch : List.Chain' spacedOk s) : collapseWs s = s := by
  cases s with
  | nil => rfl
  | cons c t => exact collapseWs_cons_id t c hsp hch

theorem head?_dropWhile_false (p : Char → Bool) (l : Str) {c : Char}
    (h : (l.dropWhile p).head? = some c) : p c = false := by
  have hd := List.head?_dropWhile_not p l
  rw [h] at hd
  exact hd

theorem dropWhile_eq_self_of_head {p : Char → Bool} {l : Str}
    (h : ∀ c, l.head? = some c → p c = false) : l.dropWhile p = l := by
  cases l with
  | nil => rfl
  | cons c t =>
    rw [List.dropWhile_cons, if_neg]
    simp [h c rfl]

theorem stripWs_mem {s : Str} {c : Char} (h : c ∈ stripWs s) : c ∈ s := by
  unfold stripWs at h
  rw [List.mem_reverse] at h
  have h1 := (List.dropWhile_sublist (l := (s.dropWhile pyIsSpace).reverse) pyIsSpace).subset h
  rw [List.mem_reverse] at h1
  exact (List.dropWhile_sublist (l := s) pyIsSpace).subset h1

theorem stripWs_chain {s : Str} (h : List.Chain' spacedOk s) :
    List.Chain' spacedOk (stripWs s) := by
  unfold stripWs
  have h1 : List.Chain' spacedOk (s.dropWhile pyIsSpace) :=
    List.Chain'.suffix h (List.dropWhile_suffix _)
  have h2 : List.Chain' spacedOk ((s.dropWhile pyIsSpace).reverse) := by
    rw [List.chain'_reverse]
    exact h1.imp (fun a b hab => fun ⟨x, y⟩ => hab ⟨y, x⟩)
  have h3 : List.Chain' spacedOk (((s.dropWhile pyIsSpace).reverse).dropWhile pyIsSpace) :=
    List.Chain'.suffix h2 (List.dropWhile_suffix _)
  rw [List.chain'_reverse]
  exact h3.imp (fun a b hab => fun ⟨x, y⟩ => hab ⟨y, x⟩)

theorem stripWs_head? {s : Str} {c : Char} (h : (stripWs s).head? = some c) :
    pyIsSpace c = false := by
  unfold stripWs at h
  rw [List.head?_reverse] at h
  obtain ⟨pre, hpre⟩ :=
    List.dropWhile_suffix (l := (s.dropWhile pyIsSpace).reverse) pyIsSpace
  have hlast : ((s.dropWhile pyIsSpace).reverse).getLast? = some c := by
    rw [← hpre, List.getLast?_append, h]
    rfl
  rw [List.getLast?_reverse] at hlast
  exact head?_dropWhile_false _ _ hlast

theorem stripWs_getLast? {s : Str} {c : Char} (h : (stripWs s).getLast? = some c) :
    pyIsSpace c = false := by
  unfold stripWs at h
  rw [List.getLast?_reverse] at h
  exact head?_dropWhile_false _ _ h

theorem stripWs_id {s : Str}
    (hh : ∀ c, s.head? = some c → pyIsSpace c = false)
    (hl : ∀ c, s.getLast? = some c → pyIsSpace c = false) : stripWs s = s := by
  unfold stripWs
  rw [dropWhile_eq_self_of_head hh,
    dropWhile_eq_self_of_head (fun c hc => hl c (by rwa [List.head?_reverse] at hc)),
    List.reverse_reverse]

/-! ### The shape of `clean_text` output -/

theorem pyIsSpace_cases {c : Char} (h : pyIsSpace c = true) :
    c = ' ' ∨ c = '\t' ∨ c = '\n' ∨ c = '\r' ∨ c = '\x0b' ∨ c = '\x0c' := by
  unfold pyIsSpace at h
  simp only [Bool.or_eq_true, beq_iff_eq] at h
  tauto

theorem isWordChar_not_space {c : Char} (h : isWordChar c = true) : pyIsSpace c = false := by
  cases hsp : pyIsSpace c with
  | false => rfl
  | true =>
    exfalso
    rcases pyIsSpace_cases hsp with rfl | rfl | rfl | rfl | rfl | rfl <;>
      exact absurd h (by decide)

theorem collapseWs_mem {s : Str} {x : Char} (hx : x ∈ collapseWs s) :
    x = ' ' ∨ (x ∈ s ∧ pyIsSpace x = false) := by
  cases s with
  | nil => cases hx
  | cons c t => exact collapseWs_cons_mem t c x hx

/-- Every `clean_text` output consists of word characters and single spaces,
with no whitespace at either end. -/
theorem cleanText_shape (s : Str) :
    (∀ c ∈ cleanText s, isWordChar c = true ∨ c = ' ') ∧
    List.Chain' spacedOk (cleanText s) ∧
    (∀ c, (cleanText s).head? = some c → pyIsSpace c = false) ∧
    (∀ c, (cleanText s).getLast? = some c → pyIsSpace c = false) := by
  unfold cleanText
  by_cases hs : s.isEmpty = true
  · rw [if_pos hs]
    exact ⟨by simp, List.chain'_nil, by simp, by simp⟩
  · rw [if_neg hs]
    refine ⟨?_, stripWs_chain (collapseWs_chain _), fun c hc => stripWs_head? hc,
      fun c hc => stripWs_getLast? hc⟩
    intro c hc
    rcases collapseWs_mem (stripWs_mem hc) with rfl | ⟨hm, hsp⟩
    · exact Or.inr rfl
    · rcases stripSpecial_mem hm with hw | hs'
      · exact Or.inl hw
      · rw [hs'] at hsp; cases hsp

/-- Strings already of the `clean_text` output shape are fixed points of
`clean_text`. -/
theorem cleanText_fixed {s : Str}
    (hmem : ∀ c ∈ s, isWordChar c = true ∨ c = ' ')
    (hch : List.Chain' spacedOk s)
    (hh : ∀ c, s.head? = some c → pyIsSpace c = false)
    (hl : ∀ c, s.getLast? = some c → pyIsSpace c = false) :
    cleanText s = s := by
  by_cases hs : s.isEmpty = true
  · unfold cleanText
    rw [if_pos hs]
    exact (List.isEmpty_iff.mp hs).symm
  · unfold cleanText
    rw [if_neg hs]
    have hcolon : (':' : Char) ∉ s := by
      intro hc
      rcases hmem _ hc with hw | hsp
      · exact absurd hw (by decide)
      · exact absurd hsp (by decide)
    have hbracket : ('[' : Char) ∉ s := by
      intro hc
      rcases hmem _ hc with hw | hsp
      · exact absurd hw (by decide)
      · exact absurd hsp (by decide)
    have hstar : ('*' : Char) ∉ s := by
      intro hc
      rcases hmem _ hc with hw | hsp
      · exact absurd hw (by decide)
      · exact absurd hsp (by decide)
    rw [removeUrls_id hcolon, removeMdLinks_id hbracket, removeBold_id hstar,
      removeItalic_id hstar, stripSpecial_id hmem,
      collapseWs_id ?hsponly hch, stripWs_id hh hl]
    case hsponly =>
      intro x hx hxs
      rcases hmem x hx with hw | rfl
      · rw [isWordChar_not_space hw] at hxs; cases hxs
      · rfl

/-! ### Claim C1: relevance substring policy -/

set_option maxRecDepth 10000 in
/-- C1: whenever any taxonomy keyword or generic fashion term occurs as a
substring of the lowercased `title + ' ' + content`, `is_fashion_relevant`
returns `true`; in particular the document whose only fashion-adjacent text
is "I bought a new kurtain" is classified relevant, because substring
matching lets "kurta" match inside "kurtain". -/
theorem C1_relevance_substring_policy :
    (∀ (title content k : Str), (k ∈ fashionKeywords ∨ k ∈ fashionTerms) →
      pyIn k (lowerStr (title ++ ' ' :: content)) = true →
      is_fashion_relevant title content = true) ∧
    is_fashion_relevant "I bought a new kurtain".toList [] = true ∧
    pyIn "kurta".toList (lowerStr "I bought a new kurtain".toList) = true := by
  refine ⟨?_, ?_, ?_⟩
  · intro title content k hk hin
    show (fashionKeywords.any (fun keyword => pyIn keyword (lowerStr (title ++ ' ' :: content)))
      || fashionTerms.any (fun term => pyIn term (lowerStr (title ++ ' ' :: content)))) = true
    rcases hk with hk | hk
    · rw [List.any_eq_true.mpr ⟨k, hk, hin⟩, Bool.true_or]
    · rw [List.any_eq_true.mpr ⟨k, hk, hin⟩, Bool.or_true]
  · decide
  · decide

set_option maxRecDepth 10000 in
/-- Witness for C1 at a concrete input: "saree" is a taxonomy keyword and a
substring of the lowercased text, so the document is relevant. -/
theorem C1_witness : is_fashion_relevant "Saree love".toList [] = true :=
  C1_relevance_substring_policy.1 "Saree love".toList [] "saree".toList
    (Or.inl (by decide)) (by decide)

/-! ### Claim C2: region detection first-match policy -/

theorem find?_min_index {α : Type} (l : List α) (p : α → Bool) :
    ∀ (i : Nat) (hi : i < l.length), p (l.get ⟨i, hi⟩) = true →
    ∃ (k : Nat) (hk : k < l.length), k ≤ i ∧ l.find? p = some (l.get ⟨k, hk⟩) := by
  induction l with
  | nil => intro i hi; exact absurd hi (by simp)
  | cons a t ih =>
    intro i hi hp
    by_cases ha : p a = true
    · exact ⟨0, by simp, Nat.zero_le _, by rw [List.find?_cons_of_pos _ ha]; rfl⟩
    · cases i with
      | zero => exact absurd hp ha
      | succ i' =>
        have hi' : i' < t.length := by simpa using hi
        have hp' : p (t.get ⟨i', hi'⟩) = true := hp
        obtain ⟨k, hk, hki, hfind⟩ := ih i' hi' hp'
        refine ⟨k + 1, by simpa using hk, Nat.succ_le_succ hki, ?_⟩
        rw [List.find?_cons_of_neg _ ha, hfind]
        rfl

/-- C2: a text containing both "punjab" (North_India) and "kerala"
(South_India) is assigned North_India, regardless of where the two terms
occur in the text; a text matching no sub-region term of any region is
assigned "Unknown"; and in general, when the region at declared position
`i` matches, no region declared strictly later than `i` is ever assigned. -/
theorem C2_region_first_match :
    (∀ text : Str, pyIn "punjab".toList (lowerStr text) = true →
      pyIn "kerala".toList (lowerStr text) = true →
      detect_region text = "North_India") ∧
    (∀ text : Str,
      (INDIAN_REGIONS.all (fun r => r.2.all (fun st => !pyIn st.toList (lowerStr text)))) = true →
      detect_region text = "Unknown") ∧
    (∀ (text : Str) (i j : Nat) (hi : i < INDIAN_REGIONS.length)
      (hj : j < INDIAN_REGIONS.length), i < j →
      (INDIAN_REGIONS.get ⟨i, hi⟩).2.any (fun st => pyIn st.toList (lowerStr text)) = true →
      detect_region text ≠ (INDIAN_REGIONS.get ⟨j, hj⟩).1) := by
  refine ⟨?_, ?_, ?_⟩
  · intro text hp _
    unfold detect_region
    have hne : ¬ text.isEmpty = true := by
      intro he
      rw [List.isEmpty_iff.mp he] at hp
      exact absurd hp (by decide)
    rw [if_neg hne]
    show (match INDIAN_REGIONS.find?
        (fun r => r.2.any (fun st => pyIn st.toList (lowerStr text))) with
      | some r => r.1
      | none => "Unknown") = "North_India"
    have hfirst : INDIAN_REGIONS.find?
        (fun r => r.2.any (fun st => pyIn st.toList (lowerStr text))) =
        some ("North_India",
          ["delhi", "punjab", "haryana", "rajasthan", "uttar_pradesh", "himachal"]) := by
      have hpred : (["delhi", "punjab", "haryana", "rajasthan", "uttar_pradesh",
          "himachal"].any (fun st => pyIn st.toList (lowerStr text))) = true :=
        List.any_eq_true.mpr ⟨"punjab", by decide, hp⟩
      exact List.find?_cons_of_pos _ hpred
    rw [hfirst]
  · intro text hall
    unfold detect_region
    by_cases hne : text.isEmpty = true
    · rw [if_pos hne]
    · rw [if_neg hne]
      show (match INDIAN_REGIONS.find?
          (fun r => r.2.any (fun st => pyIn st.toList (lowerStr text))) with
        | some r => r.1
        | none => "Unknown") = "Unknown"
      have hnone : INDIAN_REGIONS.find?
          (fun r => r.2.any (fun st => pyIn st.toList (lowerStr text))) = none := by
        rw [List.find?_eq_none]
        intro r hr hany
        rw [List.any_eq_true] at hany
        obtain ⟨st, hst, hin⟩ := hany
        rw [List.all_eq_true] at hall
        have h1 := hall r hr
        rw [List.all_eq_true] at h1
        have h2 := h1 st hst
        rw [hin] at h2
        cases h2
      rw [hnone]
  · intro text i j hi hj hij hmatch heq
    unfold detect_region at heq
    by_cases hne : text.isEmpty = true
    · rw [if_pos hne] at heq
      have hjmem : (INDIAN_REGIONS.get ⟨j, hj⟩).1 ∈ INDIAN_REGIONS.map Prod.fst :=
        List.mem_map_of_mem _ (List.get_mem _ _ _)
      rw [← heq] at hjmem
      exact absurd hjmem (by decide)
    · rw [if_neg hne] at heq
      obtain ⟨k, hk, hki, hfind⟩ := find?_min_index INDIAN_REGIONS
        (fun r => r.2.any (fun st => pyIn st.toList (lowerStr text))) i hi hmatch
      simp only [hfind] at heq
      have hnames : ∀ (a b : Fin INDIAN_REGIONS.length), a ≠ b →
          (INDIAN_REGIONS.get a).1 ≠ (INDIAN_REGIONS.get b).1 := by decide
      by_cases hkj : (⟨k, hk⟩ : Fin INDIAN_REGIONS.length) = ⟨j, hj⟩
      · have : k = j := congrArg Fin.val hkj
        omega
      · exact hnames _ _ hkj heq

set_option maxRecDepth 10000 in
/-- Witness for C2 at concrete inputs: "kerala" occurring before "punjab" in
the text still yields North_India; a text mentioning no sub-region yields
Unknown; and the first-declared matching region excludes later ones. -/
theorem C2_witness :
    detect_region "kerala first then punjab".toList = "North_India" ∧
    detect_region "no fashion here".toList = "Unknown" ∧
    detect_region "punjab and kerala".toList ≠ "South_India" := by
  refine ⟨C2_region_first_match.1 _ (by decide) (by decide),
    C2_region_first_match.2.1 _ (by decide), ?_⟩
  intro h
  exact C2_region_first_match.2.2 "punjab and kerala".toList 0 1 (by decide) (by decide)
    (by decide) (by decide) h

/-! ### Claim C3: idempotence of text normalization -/

/-- C3: `clean_text` is idempotent — applying it twice yields the same
result as applying it once, so every output is a fixed point. -/
theorem C3_clean_text_idempotent (s : Str) : cleanText (cleanText s) = cleanText s := by
  obtain ⟨h1, h2, h3, h4⟩ := cleanText_shape s
  exact cleanText_fixed h1 h2 h3 h4

/-! ### Claim C8: character set of the normalized output -/

/-- C8 counterexample: the output of `clean_text` CAN contain a character
that is neither alphanumeric nor whitespace — the underscore survives the
`[^\w\s]` filter because `\w` includes it. -/
theorem C8_counterexample :
    cleanText ['_'] = ['_'] ∧ '_'.isAlphanum = false ∧ pyIsSpace '_' = false := by
  decide

/-- C8 amended: every character of the `clean_text` output is a word
character (alphanumeric or underscore) or the space character; whitespace
runs are collapsed (no two adjacent spaces occur) and both ends are
trimmed (the first and last characters are not whitespace). -/
theorem C8_clean_text_charset (s : Str) :
    (cleanText s).all (fun c => isWordChar c || c == ' ') = true ∧
    pyIn [' ', ' '] (cleanText s) = false ∧
    ((cleanText s).take 1).all (fun c => !pyIsSpace c) = true ∧
    ((cleanText s).reverse.take 1).all (fun c => !pyIsSpace c) = true := by
  obtain ⟨h1, h2, h3, h4⟩ := cleanText_shape s
  refine ⟨?_, ?_, ?_, ?_⟩
  · rw [List.all_eq_true]
    intro c hc
    rcases h1 c hc with hw | rfl
    · simp [hw]
    · simp
  · cases hp : pyIn [' ', ' '] (cleanText s) with
    | false => rfl
    | true =>
      exfalso
      have hinf := pyIn_iff.mp hp
      have hc2 := List.Chain'.infix h2 hinf
      exact (List.chain'_cons.mp hc2).1 ⟨by decide, by decide⟩
  · cases hcl : cleanText s with
    | nil => rfl
    | cons c t =>
      have hc := h3 c (by rw [hcl]; rfl)
      simp [List.take, hc]
  · cases hcl : (cleanText s).reverse with
    | nil => rfl
    | cons c t =>
      have hlast : (cleanText s).getLast? = some c := by
        rw [← List.head?_reverse, hcl]; rfl
      have hc := h4 c hlast
      simp [List.take, hc]

/-! ### Claim C9: totality on malformed input -/

set_option maxRecDepth 4000 in
/-- C9: `clean_text` returns the empty string on null or empty input, and a
document with both title and body absent or empty is classified not
relevant (the predicate returns `false` instead of failing), so such a
document is dropped without aborting the batch. -/
theorem C9_total_on_malformed :
    cleanTextOpt none = [] ∧ cleanTextOpt (some []) = [] ∧ cleanText [] = [] ∧
    is_fashion_relevant [] [] = false := by
  decide

/-! ### Claim C4: the end-to-end source-A keyword table -/

set_option maxRecDepth 10000 in
/-- C4 counterexample: contrary to the spec's assertion, "kurta" IS a
substring of "kurtain shopping", the document titled "Kurtain shopping"
yields the keyword "kurta", and the aggregated source-A table maps "kurta"
to 1 — so the table is not exactly `{saree: 1}`. -/
theorem C4_counterexample :
    pyIn "kurta".toList "kurtain shopping".toList = true ∧
    "kurta".toList <:+: "kurtain shopping".toList ∧
    tagKeywords "Kurtain shopping".toList [] = ["kurta".toList] ∧
    sourceKeywordCount
      [("Best Saree Styles 2024".toList, []), ("Kurtain shopping".toList, [])]
      "kurta".toList = 1 := by
  refine ⟨by decide, pyIn_iff.mp (by decide), by decide, by decide⟩

set_option maxRecDepth 10000 in
/-- C4 amended: for source-A documents "Best Saree Styles 2024" and
"Kurtain shopping" (both with empty bodies), the per-document keyword lists
are `["saree"]` and `["kurta"]`, so the aggregated keyword frequency table
for source A is exactly `{saree: 1, kurta: 1}`. -/
theorem C4_source_a_table :
    ([("Best Saree Styles 2024".toList, []), ("Kurtain shopping".toList, [])].map
      (fun d => tagKeywords d.1 d.2)) = [["saree".toList], ["kurta".toList]] ∧
    sourceKeywordCount
      [("Best Saree Styles 2024".toList, []), ("Kurtain shopping".toList, [])]
      "saree".toList = 1 ∧
    sourceKeywordCount
      [("Best Saree Styles 2024".toList, []), ("Kurtain shopping".toList, [])]
      "kurta".toList = 1 := by
  refine ⟨by decide, by decide, by decide⟩

/-! ### Claim C6: the region map is not duplicate-free -/

/-- C6 counterexample: the sub-region name "madhya_pradesh" appears under
both West_India and Central_India (and "assam" under both East_India and
Northeast_India), so the pairwise-disjointness invariant fails on the
configured region map. -/
theorem C6_counterexample :
    ("West_India", ["maharashtra", "gujarat", "goa", "madhya_pradesh"]) ∈ INDIAN_REGIONS ∧
    ("Central_India", ["chhattisgarh", "madhya_pradesh"]) ∈ INDIAN_REGIONS ∧
    "madhya_pradesh" ∈ ["maharashtra", "gujarat", "goa", "madhya_pradesh"] ∧
    "madhya_pradesh" ∈ ["chhattisgarh", "madhya_pradesh"] ∧
    ("West_India" : String) ≠ "Central_India" ∧
    ("East_India", ["west_bengal", "bihar", "odisha", "jharkhand", "assam"]) ∈ INDIAN_REGIONS ∧
    ("Northeast_India", ["assam", "manipur", "meghalaya", "nagaland", "tripura"]) ∈ INDIAN_REGIONS ∧
    "assam" ∈ ["west_bengal", "bihar", "odisha", "jharkhand", "assam"] ∧
    "assam" ∈ ["assam", "manipur", "meghalaya", "nagaland", "tripura"] ∧
    ("East_India" : String) ≠ "Northeast_India" := by
  decide

/-- C6 amended: the only sub-region names shared between two distinct
macro-regions are "madhya_pradesh" (West_India and Central_India) and
"assam" (East_India and Northeast_India); every other sub-region name
appears under exactly one macro-region. -/
theorem C6_region_overlap :
    (INDIAN_REGIONS.all (fun r1 => INDIAN_REGIONS.all (fun r2 =>
      r1.1 == r2.1 || r1.2.all (fun st =>
        !(r2.2.contains st) || st == "madhya_pradesh" || st == "assam")))) = true := by
  decide

/-! ### Claim C5: cross-source comparison set laws -/

theorem dedup_toFinset (l : List Str) : l.dedup.toFinset = l.toFinset := by
  ext x
  simp [List.mem_dedup]

/-- C5: the comparison satisfies the set laws — the common set is symmetric
in the two sources, for a duplicate-free reddit list the reported reddit
count is the common count plus the reddit-only cardinality, and the two
"only" sets are disjoint; the concrete comparison of `{saree}` against
`{saree, lehenga}` gives `common = {saree}`, `a_only = {}`,
`b_only = {lehenga}` and counts `{a: 1, b: 2, common: 1}`. -/
theorem C5_comparison_set_laws :
    (∀ (A : List Str) (SR : List (List Str)),
      (compare_reddit_web_trends A SR).common_keywords =
        (compare_reddit_web_trends ((SR.flatten).dedup) [A]).common_keywords) ∧
    (∀ (A : List Str) (SR : List (List Str)), A.Nodup →
      (compare_reddit_web_trends A SR).reddit_count =
        (compare_reddit_web_trends A SR).common_count +
          (compare_reddit_web_trends A SR).reddit_only.card) ∧
    (∀ (A : List Str) (SR : List (List Str)),
      (compare_reddit_web_trends A SR).reddit_only ∩
        (compare_reddit_web_trends A SR).web_only = ∅) ∧
    ((compare_reddit_web_trends ["saree".toList]
        [["saree".toList, "lehenga".toList]]).common_keywords = {"saree".toList} ∧
      (compare_reddit_web_trends ["saree".toList]
        [["saree".toList, "lehenga".toList]]).reddit_only = ∅ ∧
      (compare_reddit_web_trends ["saree".toList]
        [["saree".toList, "lehenga".toList]]).web_only = {"lehenga".toList} ∧
      (compare_reddit_web_trends ["saree".toList]
        [["saree".toList, "lehenga".toList]]).reddit_count = 1 ∧
      (compare_reddit_web_trends ["saree".toList]
        [["saree".toList, "lehenga".toList]]).web_count = 2 ∧
      (compare_reddit_web_trends ["saree".toList]
        [["saree".toList, "lehenga".toList]]).common_count = 1) := by
  refine ⟨?_, ?_, ?_, ?_⟩
  · intro A SR
    show A.toFinset ∩ ((SR.flatten).dedup).toFinset =
      ((SR.flatten).dedup).toFinset ∩ (([A].flatten).dedup).toFinset
    rw [dedup_toFinset, dedup_toFinset]
    rw [show ([A] : List (List Str)).flatten = A ++ [] from rfl, List.append_nil]
    exact Finset.inter_comm _ _
  · intro A SR hA
    show A.length =
      (A.toFinset ∩ ((SR.flatten).dedup).toFinset).card +
        (A.toFinset \ ((SR.flatten).dedup).toFinset).card
    rw [Finset.card_inter_add_card_sdiff, List.toFinset_card_of_nodup hA]
  · intro A SR
    show (A.toFinset \ ((SR.flatten).dedup).toFinset) ∩
      (((SR.flatten).dedup).toFinset \ A.toFinset) = ∅
    ext x
    simp only [Finset.mem_inter, Finset.mem_sdiff, Finset.not_mem_empty, iff_false]
    tauto
  · refine ⟨?_, ?_, ?_, rfl, rfl, rfl⟩ <;> decide

/-- Witness for C5 at a concrete input: the length law instantiated at
`A = [saree]`, `web = [[saree, lehenga]]`, discharging the duplicate-free
hypothesis. -/
theorem C5_witness :
    (compare_reddit_web_trends ["saree".toList]
      [["saree".toList, "lehenga".toList]]).reddit_count =
      (compare_reddit_web_trends ["saree".toList]
        [["saree".toList, "lehenga".toList]]).common_count +
        (compare_reddit_web_trends ["saree".toList]
          [["saree".toList, "lehenga".toList]]).reddit_only.card :=
  C5_comparison_set_laws.2.1 ["saree".toList] [["saree".toList, "lehenga".toList]]
    (by decide)

/-! ### Claim C7: determinism and the keyword-set iteration order -/

set_option maxRecDepth 10000 in
/-- C7 counterexample: the extracted keyword list is NOT independent of the
enumeration order of the keyword set.  Two enumerations of the same
elements (as two Python interpreter runs with different hash seeds produce)
yield differently ordered keyword lists for the same document, so the
output bytes differ between such runs. -/
theorem C7_counterexample :
    (fashionKeywords.reverse).Perm fashionKeywords ∧
    extractWithOrder fashionKeywords.reverse "saree kurta".toList ≠
      extractWithOrder fashionKeywords "saree kurta".toList := by
  exact ⟨List.reverse_perm _, by decide⟩

/-- C7 amended: for a fixed enumeration of the keyword set the extraction
is a pure function of the text, and the multiset (content) of extracted
keywords is independent of the enumeration order — only the output order
depends on the set's iteration order. -/
theorem C7_extract_deterministic_up_to_order :
    ∀ (o1 o2 : List Str) (text : Str), o1.Perm o2 →
      (extractWithOrder o1 text).Perm (extractWithOrder o2 text) := by
  intro o1 o2 text hp
  unfold extractWithOrder
  by_cases h : text.isEmpty = true
  · rw [if_pos h, if_pos h]
  · rw [if_neg h, if_neg h]
    exact hp.filter _

set_option maxRecDepth 10000 in
/-- Witness for C7 at a concrete input: the reversed enumeration extracts a
permutation of what the canonical enumeration extracts. -/
theorem C7_witness :
    (extractWithOrder fashionKeywords.reverse "saree kurta".toList).Perm
      (extractWithOrder fashionKeywords "saree kurta".toList) :=
  C7_extract_deterministic_up_to_order fashionKeywords.reverse fashionKeywords
    "saree kurta".toList (List.reverse_perm _)

/-! ### Claim C10: extraction implies relevance -/

set_option maxRecDepth 10000 in
/-- C10: if `extract_fashion_keywords` on `title + ' ' + content` returns a
non-empty list then `is_fashion_relevant title content` is `true`; moreover
every extracted list is duplicate-free and each element is a taxonomy
keyword occurring as a substring of the lowercased input. -/
theorem C10_extract_implies_relevant :
    ∀ (title content text : Str),
      (extract_fashion_keywords (title ++ ' ' :: content) ≠ [] →
        is_fashion_relevant title content = true) ∧
      (extract_fashion_keywords text).Nodup ∧
      (∀ k ∈ extract_fashion_keywords text,
        k ∈ fashionKeywords ∧ pyIn k (lowerStr text) = true) := by
  have hnd : fashionKeywords.Nodup := by decide
  intro title content text
  refine ⟨?_, ?_, ?_⟩
  · intro h
    unfold extract_fashion_keywords extractWithOrder at h
    rw [if_neg (by simp)] at h
    obtain ⟨k, hk⟩ := List.exists_mem_of_ne_nil _ h
    rw [List.mem_filter] at hk
    show (fashionKeywords.any
        (fun keyword => pyIn keyword (lowerStr (title ++ ' ' :: content)))
      || fashionTerms.any (fun term => pyIn term (lowerStr (title ++ ' ' :: content)))) = true
    rw [List.any_eq_true.mpr ⟨k, hk.1, hk.2⟩, Bool.true_or]
  · unfold extract_fashion_keywords extractWithOrder
    by_cases h : text.isEmpty = true
    · rw [if_pos h]; exact List.nodup_nil
    · rw [if_neg h]; exact hnd.filter _
  · intro k hk
    unfold extract_fashion_keywords extractWithOrder at hk
    by_cases h : text.isEmpty = true
    · rw [if_pos h] at hk; cases hk
    · rw [if_neg h] at hk
      rw [List.mem_filter] at hk
      exact hk

set_option maxRecDepth 10000 in
/-- Witness for C10 at a concrete input: extraction on "lehenga pics" is
non-empty, hence the document is relevant, and "lehenga" is a taxonomy
keyword occurring in the lowercased text. -/
theorem C10_witness :
    is_fashion_relevant "lehenga pics".toList [] = true ∧
    ("lehenga".toList ∈ fashionKeywords ∧
      pyIn "lehenga".toList (lowerStr "lehenga pics".toList) = true) :=
  ⟨(C10_extract_implies_relevant "lehenga pics".toList [] "lehenga pics".toList).1
      (by decide),
    (C10_extract_implies_relevant "lehenga pics".toList [] "lehenga pics".toList).2.2
      "lehenga".toList (by decide)⟩
